import Mathlib

/-!
Shallow embedding of the OSM feature-resolution pipeline of
`scripts/map_data.py` (class `MapData`): way construction (`parse_ways`),
endpoint fusion of ways (`combine_ways`), relation resolution (`parse_rels`)
and solitary-node obstacle classification (`parse_nodes`).

Modelling notes.
* Coordinates are integers; the UTM projection `utm.from_latlon` is an
  arbitrary function parameter `proj : Int × Int → Int × Int` (it is an
  external library; the pipeline only ever applies it pointwise).
* Python dictionaries are association lists with unique keys kept in
  insertion order; `dict.update` is `dictUpdate` below (in-place overlay,
  right operand wins per key, new keys appended).  A Python `None` tags
  value is `Option.none`.
* In `combine_ways` the Python worklist `ways` holds the very objects stored
  in `self.ways`, so every in-place mutation (`nodes.reverse()`,
  `tags.update(...)`) is visible through the store.  The invariant
  `ways[k] is self.ways[ids[k]]` holds at every loop head, so the loop state
  is modelled as the pair (store, ids) and worklist ways are re-fetched from
  the store.
* `random()` draws are modelled by a pre-supplied list of already generated
  candidate identifiers (`rng`); `draw_id` models `int(-10**15 * random())`
  for an exact rational draw a/b.
* The `while` loops are modelled with explicit fuel; `none` means the fuel
  ran out (the concrete runs below use ample fuel).
-/

/-- An OSM node: identifier, geographic coordinates and its tag mapping. -/
structure Node where
  id : Int
  lat : Int
  lon : Int
  tags : List (String × String) := []
deriving Repr, DecidableEq

/-- A tag mapping (Python `dict` of string to string) as an association list. -/
abbrev Tags := List (String × String)

/-- Planar geometry attached to a way: an open polyline (`shapely.LineString`),
a closed polygon (`shapely.Polygon`), a disk (`Point.buffer`), or a
multi-part line (`shapely.MultiLineString`, produced by `linemerge` when the
inputs do not touch). -/
inductive Geom where
  | line (coords : List (Int × Int))
  | poly (coords : List (Int × Int))
  | disk (center : Int × Int) (radius : Int)
  | multi (parts : List (List (Int × Int)))
deriving Repr, DecidableEq

/-- Modelled from the spec: the `Way` entity of `way.py` (the class itself is
not under `src/`; its field defaults follow the spec's data model, §3: tags
never null once built, `is_area` false unless the way is a closed ring,
`role` unset unless assigned by relation resolution).  `tags` is an
`Option` so that the Python `None` value remains representable. -/
structure Way where
  id : Int := 0
  nodes : List Node := []
  is_area : Bool := false
  tags : Option Tags := none
  line : Geom := Geom.line []
  in_out : Option String := none
deriving Repr, DecidableEq

instance : Inhabited Way := ⟨{}⟩

/-- The authoritative way store `self.ways`: a Python dict keyed by id,
modelled as an association list with unique keys in insertion order. -/
abbrev Store := List (Int × Way)

/-- Dict lookup `store[k]` (as an `Option`). -/
def storeFind (s : Store) (k : Int) : Option Way :=
  (s.find? (fun p => p.1 == k)).map Prod.snd

/-- Dict write `store[k] = w`: replaces the entry in place if the key exists,
otherwise appends it (Python dict insertion-order semantics). -/
def storeInsert (s : Store) (k : Int) (w : Way) : Store :=
  if s.any (fun p => p.1 == k) then
    s.map (fun p => if p.1 == k then (k, w) else p)
  else s ++ [(k, w)]

/-- `store.keys()`. -/
def storeKeys (s : Store) : List Int := s.map Prod.fst

/-- Fetch a way from the store (total; the pipeline only looks up present
keys — a missing key would be a Python `KeyError`). -/
def getWay (s : Store) (k : Int) : Way := (storeFind s k).getD default

/-- Dict lookup on a tag mapping. -/
def tagsGet (t : Tags) (k : String) : Option String :=
  (t.find? (fun p => p.1 == k)).map Prod.snd

/-- Python `base.update(over)`: every key of `over` overwrites or extends
`base`; keys only in `base` are preserved in place, new keys are appended. -/
def dictUpdate (base over : Tags) : Tags :=
  base.map (fun p =>
    match tagsGet over p.1 with
    | some v => (p.1, v)
    | none => p)
  ++ over.filter (fun p => ! base.any (fun q => q.1 == p.1))

/-- Identifier of a way's first node (`way.nodes[0].id`). -/
def hdId (w : Way) : Int := ((w.nodes.head?).map Node.id).getD 0

/-- Identifier of a way's final node (`way.nodes[-1].id`). -/
def tlId (w : Way) : Int := ((w.nodes.getLast?).map Node.id).getD 0

/-- Projected coordinates of a node list, in input order. -/
def wayCoords (proj : Int × Int → Int × Int) (nodes : List Node) : List (Int × Int) :=
  nodes.map (fun n => proj (n.lat, n.lon))

/-- The coordinate sequence of a geometry (`geom.coords`; empty for the
multi-part and disk cases, where shapely would raise or return a view). -/
def geomCoords : Geom → List (Int × Int)
  | Geom.line cs => cs
  | Geom.poly cs => cs
  | Geom.disk _ _ => []
  | Geom.multi _ => []

/-- `shapely.ops.linemerge` restricted to two polylines, as used by
`combine_ways`: the lines are concatenated at a shared endpoint (in any of
the four orientations), otherwise the result is a multi-part line. -/
def linemerge2 (a b : Geom) : Geom :=
  match a, b with
  | Geom.line ca, Geom.line cb =>
    if ca.getLast? = cb.head? then Geom.line (ca ++ cb.tail)
    else if ca.head? = cb.head? then Geom.line (ca.reverse ++ cb.tail)
    else if ca.getLast? = cb.getLast? then Geom.line (ca ++ cb.reverse.tail)
    else if ca.head? = cb.getLast? then Geom.line (cb ++ ca.tail)
    else Geom.multi [ca, cb]
  | _, _ => Geom.multi []

/-- A raw OSM way record as delivered by the query (`overpy` way: ordered
node list plus a tag mapping that may be absent). -/
structure RawWay where
  id : Int
  nodes : List Node
  tags : Option Tags := some []
deriving Repr, DecidableEq

/-- `MapData.parse_ways`, body for one raw way: project every node, mark the
way as an area iff the first and last projected coordinates coincide
(`coords[0] == coords[-1]`), build polygon or polyline geometry accordingly,
default absent tags to the empty mapping.  The error path is modelled:
when the closure branch is taken on a degenerate ring,
`geometry.Polygon(coords)` raises `ValueError` (shapely requires a valid
linear ring — at least 4 coordinate tuples once closed; old 1.x releases
accept some degenerate 3-tuple rings), and an empty node list already
raises `IndexError` at `coords[0]`; both abort the run and store nothing.
The model returns `none` for every coordinate-closed way of fewer than 4
coordinate tuples, so a `some` result is a way the program stores under any
shapely generation.  A `LineString` of the non-closed branch always has at
least 2 distinct coordinates and never raises. -/
def parse_way (proj : Int × Int → Int × Int) (w : RawWay) : Option Way :=
  let coords := wayCoords proj w.nodes
  let is_area := coords.head? == coords.getLast?
  if is_area = true ∧ coords.length < 4 then none
  else
    some
      { id := w.id
        is_area := is_area
        nodes := w.nodes
        tags := some (w.tags.getD [])
        line := if is_area then Geom.poly coords else Geom.line coords }

/-- `MapData.parse_ways` over a list of raw ways: store every built way under
its id and record every member node id in `self.way_node_ids`; the first
raising way aborts the whole parse (the exception propagates out of
`run_parse`), modelled as `none`. -/
def parse_ways (proj : Int × Int → Int × Int) :
    List RawWay → Store → List Int → Option (Store × List Int)
  | [], st, wni => some (st, wni)
  | rw :: rest, st, wni =>
    match parse_way proj rw with
    | none => none
    | some w =>
      parse_ways proj rest (storeInsert st w.id w) (wni ++ rw.nodes.map Node.id)

/-- The geometry the spec says a way must carry: derived from its node
sequence via projection, polygon kind iff `is_area`. -/
def derivedGeom (proj : Int × Int → Int × Int) (w : Way) : Geom :=
  if w.is_area then Geom.poly (wayCoords proj w.nodes)
  else Geom.line (wayCoords proj w.nodes)

/-- The synthetic-id retry loop of `combine_ways`
(`new_way.id = int(-10**15*random()); while new_way.id in self.ways.keys():
retry`): take the first pre-drawn candidate that is not a live key. -/
def genId : List Int → List Int → Option (Int × List Int)
  | [], _ => none
  | c :: rest, keys => if keys.contains c then genId rest keys else some (c, rest)

/-- `int(-10**15 * random())` for an exact draw `a / b` (with `a < b`):
the float value `-(10^15 * a/b)` is non-positive, so Python `int` truncation
toward zero gives the negated floor. -/
def draw_id (a b : Nat) : Int := -((10 ^ 15 * (a : Int)) / (b : Int))

/-- The fusion body of `combine_ways` (lines 268–286): merge the two
geometries, draw a fresh id, concatenate the node sequences dropping the
duplicated junction node, normalise both source ways' `None` tags to empty
dicts in place, overlay way `j`'s tags onto way `i`'s tags in place — and
assign the *return value* of `dict.update`, which is `None`, as the new
way's tags — then close the way into an area polygon if its first and last
node ids coincide.  Returns the new way, the store after the in-place tag
mutations of the two source ways, and the remaining draws. -/
def fuse (ki kj : Int) (store : Store) (rng : List Int) :
    Option (Way × Store × List Int) :=
  let wi := getWay store ki
  let wj := getWay store kj
  let combined := linemerge2 wi.line wj.line
  match genId rng (storeKeys store) with
  | none => none
  | some (nid, rng1) =>
    let newNodes := wi.nodes ++ wj.nodes.tail
    let storeA := storeInsert store ki { wi with tags := some (wi.tags.getD []) }
    let wjA := getWay storeA kj
    let storeB := storeInsert storeA kj { wjA with tags := some (wjA.tags.getD []) }
    let wiB := getWay storeB ki
    let tj := (getWay storeB kj).tags.getD []
    let storeC :=
      storeInsert storeB ki { wiB with tags := some (dictUpdate (wiB.tags.getD []) tj) }
    let closed := (newNodes.head?.map Node.id) == (newNodes.getLast?.map Node.id)
    let nw : Way :=
      { id := nid
        nodes := newNodes
        tags := none
        is_area := closed
        line := if closed then Geom.poly (geomCoords combined) else combined }
    some (nw, storeC, rng1)

/-- The orientation normalization of `combine_ways` (lines 261–264): if the
two ways' first nodes coincide reverse way `i`'s node sequence in place,
else if the last nodes coincide reverse way `j`'s — both only when neither
way is an area.  The geometries are NOT touched. -/
def normalizeStep (store : Store) (ki kj : Int) : Store :=
  if hdId (getWay store ki) = hdId (getWay store kj) ∧
      (getWay store ki).is_area = false ∧ (getWay store kj).is_area = false then
    storeInsert store ki
      { getWay store ki with nodes := (getWay store ki).nodes.reverse }
  else if tlId (getWay store ki) = tlId (getWay store kj) ∧
      (getWay store ki).is_area = false ∧ (getWay store kj).is_area = false then
    storeInsert store kj
      { getWay store kj with nodes := (getWay store kj).nodes.reverse }
  else store

/-- The fusion trigger (line 266): way `i`'s last node id equals way `j`'s
first node id and neither way is an area. -/
def fuseTrigger (store : Store) (ki kj : Int) : Prop :=
  tlId (getWay store ki) = hdId (getWay store kj) ∧
    (getWay store ki).is_area = false ∧ (getWay store kj).is_area = false

instance (store : Store) (ki kj : Int) : Decidable (fuseTrigger store ki kj) := by
  unfold fuseTrigger
  infer_instance

/-- The nested `while` loops of `MapData.combine_ways`.  State is the store,
the live id worklist (`ids`, with `ways[k] = store[ids[k]]` at every loop
head) and the remaining random draws; `i`, `j` are the two loop indices.
After a fusion Python executes `i -= 1; j -= 1; break` followed by the outer
`i += 1`, so the scan resumes at the same `i` with `j = 0`. -/
def combineLoop :
    Nat → Store → List Int → List Int → Nat → Nat →
    Option (Store × List Int × List Int)
  | 0, _, _, _, _, _ => none
  | fuel + 1, store, ids, rng, i, j =>
    if i < ids.length then
      if j < ids.length then
        if i = j then
          combineLoop fuel store ids rng i (j + 1)
        else
          let ki := ids.getD i 0
          let kj := ids.getD j 0
          let store1 := normalizeStep store ki kj
          if fuseTrigger store1 ki kj then
            match fuse ki kj store1 rng with
            | none => none
            | some (nw, store2, rng1) =>
              combineLoop fuel (storeInsert store2 nw.id nw)
                ((ids.set j nw.id).eraseIdx i) rng1 i 0
          else
            combineLoop fuel store1 ids rng i (j + 1)
      else
        combineLoop fuel store ids rng (i + 1) 0
    else
      some (store, ids, rng)

/-- `MapData.combine_ways`: run the pairwise scan from indices (0, 0) and
return the surviving worklist ids together with the mutated store. -/
def combine_ways (fuel : Nat) (store : Store) (ids : List Int)
    (rng : List Int) : Option (Store × List Int × List Int) :=
  combineLoop fuel store ids rng 0 0

/-- A relation member as delivered by `overpy` (`member._type_value`,
`member.ref`, `member.role`). -/
structure RelMember where
  type_value : String
  ref : Int
  role : String
deriving Repr, DecidableEq

/-- A relation: its member list and its own tag mapping (possibly absent). -/
structure OsmRel where
  members : List RelMember
  tags : Option Tags := some []
deriving Repr, DecidableEq

/-- The member partition of `parse_rels` (lines 310–316): keep members of
type `way` whose referenced id is a live store key; those with declared role
`outer` go to `outer_ids`, every other role to `inner_ids`, in member
order. -/
def partitionMembers (keys : List Int) (members : List RelMember) :
    List Int × List Int :=
  members.foldl
    (fun acc m =>
      if m.type_value == "way" then
        if keys.contains m.ref then
          if m.role == "outer" then (acc.1 ++ [m.ref], acc.2)
          else (acc.1, acc.2 ++ [m.ref])
        else acc
      else acc)
    ([], [])

/-- The outer-way loop of `parse_rels` (lines 321–331): for every id of the
merged outer worklist set `in_out = "outer"`, default `None` tags to an empty
dict and overlay the relation's tags in place (relation wins per key). -/
def outerMark (st : Store) (ids : List Int) (relTags : Tags) : Store :=
  ids.foldl
    (fun st id =>
      let w := getWay st id
      storeInsert st id
        { w with
          in_out := some "outer"
          tags := some (dictUpdate (w.tags.getD []) relTags) })
    st

/-- The inner-way loop of `parse_rels` (lines 333–336): set
`in_out = "inner"`; nothing else is touched. -/
def innerMark (st : Store) (ids : List Int) : Store :=
  ids.foldl
    (fun st id => storeInsert st id { getWay st id with in_out := some "inner" })
    st

/-- `MapData.parse_rels`, body for one relation: partition the members,
fuse the outer ways, then mark/overlay outer and inner ways.  Also returns
the merged outer id worklist so that theorems can speak about the resulting
outer ways. -/
def parse_rel (fuel : Nat) (store : Store) (rng : List Int) (rel : OsmRel) :
    Option (Store × List Int × List Int) :=
  let part := partitionMembers (storeKeys store) rel.members
  match combine_ways fuel store part.1 rng with
  | none => none
  | some (st1, outs, rng1) =>
    let st2 := outerMark st1 outs (rel.tags.getD [])
    let st3 := innerMark st2 part.2
    some (st3, outs, rng1)

/-- The configured obstacle disk radius (`OBSTACLE_RADIUS = 2`). -/
def OBSTACLE_RADIUS : Int := 2

/-- A loaded tag-rule table (`csv_to_dict` output): key to list of values. -/
abbrev RuleSet := List (String × List String)

/-- Rule-table lookup (`rules[key]` as an `Option`). -/
def ruleGet (rules : RuleSet) (k : String) : Option (List String) :=
  (rules.find? (fun p => p.1 == k)).map Prod.snd

/-- The obstacle test of `parse_nodes` (line 344): some tag key of the node
is an obstacle-rule key and either the node's value is listed there, or the
rule lists the wildcard `*` and the node's value is not listed under that
key in the not-obstacle rules. -/
def is_obstacle (obst notObst : RuleSet) (tags : Tags) : Bool :=
  tags.any
    (fun kv =>
      match ruleGet obst kv.1 with
      | none => false
      | some vals =>
        vals.contains kv.2 ||
          (vals.contains "*" && ! ((ruleGet notObst kv.1).getD []).contains kv.2))

/-- `MapData.parse_nodes`, body for one node: nodes referenced by some way
are skipped; a solitary node matching the obstacle test yields one Obstacle
way (the node's id, `is_area = true`, the node's tags, a disk of the fixed
radius at the node's projected position); otherwise nothing. -/
def parse_node (proj : Int × Int → Int × Int) (wni : List Int)
    (obst notObst : RuleSet) (n : Node) : Option Way :=
  if wni.contains n.id then none
  else if is_obstacle obst notObst n.tags then
    some
      { id := n.id
        is_area := true
        tags := some n.tags
        line := Geom.disk (proj (n.lat, n.lon)) OBSTACLE_RADIUS }
  else none

/-- The obstacle condition as the spec states it (refinement target for the
`is_obstacle` code): some tag key of the node is present in the obstacle
rule set, and either the node's value is listed under that key, or the rules
list the wildcard `*` for that key and the node's value is not listed under
that key in the not-obstacle rules. -/
def obstacle_rule_matches (obst notObst : RuleSet) (tags : Tags) : Prop :=
  ∃ kv ∈ tags, ∃ vals, ruleGet obst kv.1 = some vals ∧
    (kv.2 ∈ vals ∨ ("*" ∈ vals ∧ kv.2 ∉ (ruleGet notObst kv.1).getD []))

/-! ### Concrete scenarios (identity projection, nodes at distinct coordinates) -/

/-- Identity projection for the concrete scenarios (any injective planar
projection behaves alike; the pipeline treats it as a black box). -/
def projId : Int × Int → Int × Int := fun p => p

/-- Node `i` at coordinates (10+i, 20+i) — pairwise distinct. -/
def mkNode (i : Int) : Node := { id := i, lat := 10 + i, lon := 20 + i }

/-- A raw way through the given node ids with the given tags. -/
def mkRaw (i : Int) (ns : List Int) (tg : Tags) : RawWay :=
  { id := i, nodes := ns.map mkNode, tags := some tg }

/-- Three non-area ways forming a cycle: A(1,2), B(2,3), C(3,1). -/
def chainStore : Store := ((parse_ways projId
  [mkRaw 1 [1,2] [("highway","path")], mkRaw 2 [2,3] [("surface","gravel")],
   mkRaw 3 [3,1] [("highway","track")]] [] []).getD ([], [])).1

/-- Merging the three-way cycle. -/
def chainRun : Option (Store × List Int × List Int) :=
  combine_ways 100 chainStore [1, 2, 3] [-1, -2]

/-- Two fusable ways A(1,2), B(2,3) with overlapping tag keys. -/
def pairStore : Store := ((parse_ways projId
  [mkRaw 1 [1,2] [("a","1")], mkRaw 2 [2,3] [("a","2"),("b","3")]] [] []).getD ([], [])).1

/-- Merging the two-way chain. -/
def pairRun : Option (Store × List Int × List Int) :=
  combine_ways 100 pairStore [1, 2] [-1]

/-- Four ways (1,2), (3,1), (4,1), (3,4): the pairwise scan terminates with
two chains that still share endpoint 4. -/
def quadStore : Store := ((parse_ways projId
  [mkRaw 1 [1,2] [], mkRaw 2 [3,1] [], mkRaw 3 [4,1] [], mkRaw 4 [3,4] []] [] []).getD
    ([], [])).1

/-- First merge pass over the four ways. -/
def quadRun1 : Option (Store × List Int × List Int) :=
  combine_ways 100 quadStore [1, 2, 3, 4] [-1, -2]

/-- Second merge pass, started on the id set the first pass returned. -/
def quadRun2 : Option (Store × List Int × List Int) :=
  combine_ways 100 (quadRun1.getD ([], [], [])).1 (quadRun1.getD ([], [], [])).2.1 [-3]

/-- Two ways sharing their FIRST node: A(1,2), C(1,3) — triggers the
orientation normalization that reverses A's stored node list in place. -/
def shareStore : Store :=
  ((parse_ways projId [mkRaw 5 [1,2] [], mkRaw 6 [1,3] []] [] []).getD ([], [])).1

/-- Merging the first-node-sharing pair. -/
def shareRun : Option (Store × List Int × List Int) :=
  combine_ways 100 shareStore [5, 6] [-1]

/-- A merge run whose single random draw is the exact rational 1/2. -/
def c10Run : Option (Store × List Int × List Int) :=
  combineLoop 40 pairStore [1, 2]
    ([((1 : Nat), (2 : Nat))].map fun p => draw_id p.1 p.2) 0 0

/-- A store with the single way 1 (nodes 1, 2). -/
def relStore : Store :=
  ((parse_ways projId [mkRaw 1 [1,2] [("name","w")]] [] []).getD ([], [])).1

/-- A relation that lists way 1 both as an `outer` and as an `inner` member. -/
def dupRel : OsmRel :=
  { members := [⟨"way", 1, "outer"⟩, ⟨"way", 1, "inner"⟩], tags := some [("rt","rv")] }

/-- Resolving the dual-role relation. -/
def dupRelRun : Option (Store × List Int × List Int) := parse_rel 100 relStore [] dupRel

/-- A well-formed relation: way 1 outer, way 2 inner, over `pairStore`. -/
def okRel : OsmRel :=
  { members := [⟨"way", 1, "outer"⟩, ⟨"way", 2, "inner"⟩], tags := some [("a","R")] }

/-- Resolving the well-formed relation. -/
def okRelRun : Option (Store × List Int × List Int) := parse_rel 100 pairStore [] okRel

/-- A four-node way tracing a valid triangular ring whose first and last
nodes are DISTINCT nodes at identical coordinates: geometry.Polygon accepts
its four coordinate tuples, so the real parse stores it without error. -/
def coincidentRaw : RawWay :=
  { id := 7,
    nodes := [{ id := 1, lat := 0, lon := 0 }, { id := 2, lat := 1, lon := 0 },
              { id := 3, lat := 1, lon := 1 }, { id := 9, lat := 0, lon := 0 }],
    tags := some [] }

/-- An ordinary open two-node way. -/
def openRaw : RawWay := mkRaw 8 [1, 2] [("x","y")]

/-- Obstacle rules: `barrier -> fence`, `natural -> *`. -/
def obstRules : RuleSet := [("barrier", ["fence"]), ("natural", ["*"])]

/-- Not-obstacle rules: `natural -> grass`. -/
def notObstRules : RuleSet := [("natural", ["grass"])]

/-- A solitary node tagged `barrier=fence`. -/
def fenceNode : Node := { id := 42, lat := 3, lon := 4, tags := [("barrier","fence")] }

/-! ### Supporting lemmas about the store and tag mappings -/

theorem find?_filter_of_imp {α : Type} (p g : α → Bool) (l : List α)
    (h : ∀ a, p a = true → g a = true) :
    (l.filter g).find? p = l.find? p := by
  induction l with
  | nil => rfl
  | cons a t ih =>
    by_cases hp : p a = true
    · have hg := h a hp
      simp [List.filter_cons, hg, List.find?, hp]
    · have hp' : p a = false := by
        cases hpa : p a
        · rfl
        · exact absurd hpa hp
      by_cases hg : g a = true
      · simp [List.filter_cons, hg, List.find?, hp', ih]
      · have hg' : g a = false := by
          cases hga : g a
          · rfl
          · exact absurd hga hg
        simp [List.filter_cons, hg', List.find?, hp', ih]

theorem tagsGet_append (a b : Tags) (k : String) :
    tagsGet (a ++ b) k = (tagsGet a k).orElse (fun _ => tagsGet b k) := by
  unfold tagsGet
  rw [List.find?_append]
  cases a.find? (fun p => p.1 == k) <;> simp [Option.orElse]

theorem tagsGet_key_eq {t : Tags} {k : String} {q : String × String}
    (h : t.find? (fun p => p.1 == k) = some q) : q.1 = k := by
  have := List.find?_some h
  exact eq_of_beq this

theorem tagsGet_map_subst (g : String → Option String) (b : Tags) (k : String) :
    tagsGet
      (b.map fun p =>
        match g p.1 with
        | some v => (p.1, v)
        | none => p) k =
      match b.find? (fun p => p.1 == k) with
      | none => none
      | some q =>
        some
          (match g k with
          | some v => v
          | none => q.2) := by
  induction b with
  | nil => rfl
  | cons p t ih =>
    have hhd : ∀ x : Option String,
        ((match x with
          | some v => (p.1, v)
          | none => p) : String × String).1 = p.1 := by
      intro x
      cases x <;> rfl
    by_cases hpk : (p.1 == k) = true
    · have hk : p.1 = k := eq_of_beq hpk
      unfold tagsGet
      simp only [List.map_cons, List.find?_cons, hhd (g p.1), hpk]
      rw [← hk]
      cases hg : g p.1 <;> simp [hg]
    · have hpk' : (p.1 == k) = false := by
        cases hx : p.1 == k
        · rfl
        · exact absurd hx hpk
      unfold tagsGet
      simp only [List.map_cons, List.find?_cons, hhd (g p.1), hpk']
      exact ih

/-- Lookup through a Python `dict.update`: the overlay's value wins per key,
keys found only in the base survive. -/
theorem tagsGet_dictUpdate (b o : Tags) (k : String) :
    tagsGet (dictUpdate b o) k = (tagsGet o k).orElse (fun _ => tagsGet b k) := by
  unfold dictUpdate
  rw [tagsGet_append, tagsGet_map_subst (tagsGet o) b k]
  cases hb : b.find? (fun p => p.1 == k) with
  | some q =>
    have hbv : tagsGet b k = some q.2 := by unfold tagsGet; rw [hb]; rfl
    cases ho : tagsGet o k with
    | some w => simp [ho, Option.orElse]
    | none => simp [ho, hbv, Option.orElse]
  | none =>
    have hbv : tagsGet b k = none := by unfold tagsGet; rw [hb]; rfl
    have hfil : tagsGet (o.filter fun p => ! b.any fun q => q.1 == p.1) k =
        tagsGet o k := by
      unfold tagsGet
      rw [find?_filter_of_imp]
      intro a ha
      have hak : a.1 = k := eq_of_beq ha
      have : b.any (fun q => q.1 == a.1) = false := by
        rw [hak]
        by_contra hcon
        have : b.any (fun q => q.1 == k) = true := by
          cases hx : b.any (fun q => q.1 == k)
          · exact absurd hx hcon
          · rfl
        obtain ⟨x, hx, hxk⟩ := List.any_eq_true.mp this
        have : b.find? (fun p => p.1 == k) ≠ none := by
          intro hnone
          have := List.find?_eq_none.mp hnone x hx
          exact this hxk
        exact this hb
      simp [this]
    rw [hfil]
    cases ho : tagsGet o k <;> simp [hbv, Option.orElse]

theorem mem_storeKeys (s : Store) (k : Int) :
    k ∈ storeKeys s ↔ s.any (fun p => p.1 == k) = true := by
  unfold storeKeys
  rw [List.any_eq_true]
  constructor
  · intro h
    obtain ⟨p, hp, hk⟩ := List.mem_map.mp h
    exact ⟨p, hp, by simp [hk]⟩
  · intro ⟨p, hp, hk⟩
    exact List.mem_map.mpr ⟨p, hp, (eq_of_beq hk).symm ▸ rfl⟩

theorem storeKeys_storeInsert (s : Store) (k : Int) (w : Way) :
    storeKeys (storeInsert s k w) =
      if k ∈ storeKeys s then storeKeys s else storeKeys s ++ [k] := by
  unfold storeInsert
  by_cases h : k ∈ storeKeys s
  · rw [if_pos ((mem_storeKeys s k).mp h), if_pos h]
    unfold storeKeys
    rw [List.map_map]
    apply List.map_congr_left
    intro p _
    by_cases hp : p.1 = k
    · simp [Function.comp, hp]
    · have : (p.1 == k) = false := by
        cases hx : p.1 == k
        · rfl
        · exact absurd (eq_of_beq hx) hp
      simp [Function.comp, this]
  · have h' : s.any (fun p => p.1 == k) ≠ true := fun hc => h ((mem_storeKeys s k).mpr hc)
    rw [if_neg h', if_neg h]
    unfold storeKeys
    simp

theorem mem_storeKeys_storeInsert (s : Store) (k m : Int) (w : Way) :
    m ∈ storeKeys (storeInsert s k w) ↔ m ∈ storeKeys s ∨ m = k := by
  rw [storeKeys_storeInsert]
  by_cases h : k ∈ storeKeys s
  · rw [if_pos h]
    constructor
    · exact Or.inl
    · rintro (hm | rfl)
      · exact hm
      · exact h
  · rw [if_neg h]
    simp

theorem storeFind_storeInsert_self (s : Store) (k : Int) (w : Way) :
    storeFind (storeInsert s k w) k = some w := by
  unfold storeInsert storeFind
  by_cases h : s.any (fun p => p.1 == k) = true
  · rw [if_pos h]
    rw [List.find?_map]
    have hcomp :
        ((fun p : Int × Way => p.1 == k) ∘ fun p : Int × Way =>
          if p.1 == k then (k, w) else p) = fun p : Int × Way => p.1 == k := by
      funext p
      by_cases hp : (p.1 == k) = true
      · simp [Function.comp, hp]
      · have hp' : (p.1 == k) = false := by
          cases hx : p.1 == k
          · rfl
          · exact absurd hx hp
        simp [Function.comp, hp']
    rw [hcomp]
    obtain ⟨p, hp, hpk⟩ := List.any_eq_true.mp h
    have hsome : (s.find? fun p => p.1 == k).isSome := by
      rw [List.find?_isSome]
      exact ⟨p, hp, hpk⟩
    obtain ⟨q, hq⟩ := Option.isSome_iff_exists.mp hsome
    have hqk := List.find?_some hq
    have hqk' : q.1 = k := eq_of_beq hqk
    rw [hq]
    simp [hqk']
  · rw [if_neg h]
    have hnone : s.find? (fun p => p.1 == k) = none := by
      rw [List.find?_eq_none]
      intro p hp hpk
      exact h (List.any_eq_true.mpr ⟨p, hp, hpk⟩)
    rw [List.find?_append, hnone]
    simp [List.find?]

theorem storeFind_storeInsert_ne (s : Store) (k m : Int) (w : Way)
    (h : m ≠ k) : storeFind (storeInsert s k w) m = storeFind s m := by
  unfold storeInsert storeFind
  by_cases hs : s.any (fun p => p.1 == k) = true
  · rw [if_pos hs]
    rw [List.find?_map]
    have hcomp :
        ((fun p : Int × Way => p.1 == m) ∘ fun p : Int × Way =>
          if p.1 == k then (k, w) else p) = fun p : Int × Way => p.1 == m := by
      funext p
      by_cases hp : (p.1 == k) = true
      · have hkm : (k == m) = false := by
          cases hx : k == m
          · rfl
          · exact absurd (eq_of_beq hx).symm h
        have : p.1 = k := eq_of_beq hp
        simp [Function.comp, hp, this, hkm]
      · have hp' : (p.1 == k) = false := by
          cases hx : p.1 == k
          · rfl
          · exact absurd hx hp
        simp [Function.comp, hp']
    rw [hcomp]
    cases hf : s.find? (fun p => p.1 == m) with
    | none => simp
    | some q =>
      have hfq := List.find?_some hf
      have hqm : q.1 = m := eq_of_beq hfq
      have hqkne : q.1 ≠ k := fun hc => h (hqm ▸ hc)
      simp [hqkne]
  · rw [if_neg hs]
    rw [List.find?_append]
    cases hf : s.find? (fun p => p.1 == m) with
    | some q => simp
    | none =>
      have : (k == m) = false := by
        cases hx : k == m
        · rfl
        · exact absurd (eq_of_beq hx).symm h
      simp [List.find?, this]

theorem getWay_storeInsert_self (s : Store) (k : Int) (w : Way) :
    getWay (storeInsert s k w) k = w := by
  unfold getWay
  rw [storeFind_storeInsert_self]
  rfl

theorem getWay_storeInsert_ne (s : Store) (k m : Int) (w : Way) (h : m ≠ k) :
    getWay (storeInsert s k w) m = getWay s m := by
  unfold getWay
  rw [storeFind_storeInsert_ne s k m w h]

theorem getD_mem_of_lt {l : List Int} {i : Nat} (h : i < l.length) :
    l.getD i 0 ∈ l := by
  rw [List.getD_eq_getElem?_getD, List.getElem?_eq_getElem h]
  exact List.getElem_mem h

/-- The retry loop never returns a live key, and it discards exactly a
(collision) prefix of the draws. -/
theorem genId_spec (rng keys : List Int) (c : Int) (rest : List Int)
    (h : genId rng keys = some (c, rest)) :
    c ∉ keys ∧ ∃ pre, rng = pre ++ c :: rest ∧ ∀ x ∈ pre, x ∈ keys := by
  induction rng generalizing c rest with
  | nil => exact absurd h (by simp [genId])
  | cons a t ih =>
    unfold genId at h
    by_cases ha : keys.contains a = true
    · rw [if_pos ha] at h
      obtain ⟨hc, pre, hpre, hall⟩ := ih c rest h
      refine ⟨hc, a :: pre, by simp [hpre], ?_⟩
      intro x hx
      rcases List.mem_cons.mp hx with rfl | hx
      · simpa using ha
      · exact hall x hx
    · rw [if_neg ha] at h
      obtain ⟨rfl, rfl⟩ : a = c ∧ t = rest := by
        have := Option.some.inj h
        exact ⟨congrArg Prod.fst this, congrArg Prod.snd this⟩
      refine ⟨fun hc => ha (by simpa using hc), [], rfl, by simp⟩

/-! ### Properties of a single fusion -/

/-- Everything `combine_ways` does when the trigger fires, read off the
fusion body: node concatenation with the junction node de-duplicated, the
`None` tags produced by the value of `dict.update`, a fresh id obtained by
retrying over the draws, the closure check, and the in-place tag mutations
of the two constituent store entries. -/
theorem fuse_spec {ki kj : Int} {store : Store} {rng : List Int}
    {nw : Way} {st2 : Store} {rng1 : List Int}
    (h : fuse ki kj store rng = some (nw, st2, rng1)) :
    nw.nodes = (getWay store ki).nodes ++ (getWay store kj).nodes.tail ∧
    nw.tags = none ∧
    nw.id ∉ storeKeys store ∧
    (∃ pre, rng = pre ++ nw.id :: rng1 ∧ ∀ x ∈ pre, x ∈ storeKeys store) ∧
    nw.is_area = ((nw.nodes.head?.map Node.id) == (nw.nodes.getLast?.map Node.id)) ∧
    (nw.is_area = true →
      nw.line =
        Geom.poly (geomCoords (linemerge2 (getWay store ki).line (getWay store kj).line))) ∧
    (nw.is_area = false →
      nw.line = linemerge2 (getWay store ki).line (getWay store kj).line) ∧
    (∀ k, k ∈ storeKeys store → k ∈ storeKeys st2) ∧
    (∀ k, k ∈ storeKeys st2 → k ∈ storeKeys store ∨ k = ki ∨ k = kj) ∧
    (∀ k, k ≠ ki → k ≠ kj → storeFind st2 k = storeFind store k) := by
  unfold fuse at h
  cases hg : genId rng (storeKeys store) with
  | none => rw [hg] at h; simp at h
  | some pr =>
    obtain ⟨nid, rngr⟩ := pr
    rw [hg] at h
    simp only [Option.some.injEq, Prod.mk.injEq] at h
    obtain ⟨hnw, hst, hrng⟩ := h
    subst hnw
    subst hst
    subst hrng
    obtain ⟨hfresh, pre, hpre, hall⟩ := genId_spec _ _ _ _ hg
    refine ⟨rfl, rfl, hfresh, ⟨pre, hpre, hall⟩, rfl, ?_, ?_, ?_, ?_, ?_⟩
    · intro ha
      simp only at ha ⊢
      rw [if_pos ha]
    · intro ha
      simp only at ha ⊢
      rw [if_neg (by rw [ha]; simp)]
    · intro k hk
      simp only [mem_storeKeys_storeInsert]
      exact Or.inl (Or.inl (Or.inl hk))
    · intro k hk
      simp only [mem_storeKeys_storeInsert] at hk
      rcases hk with ((hk | hk) | hk) | hk
      · exact Or.inl hk
      · exact Or.inr (Or.inl hk)
      · exact Or.inr (Or.inr hk)
      · exact Or.inr (Or.inl hk)
    · intro k hki hkj
      rw [storeFind_storeInsert_ne _ _ _ _ hki, storeFind_storeInsert_ne _ _ _ _ hkj,
        storeFind_storeInsert_ne _ _ _ _ hki]

theorem normalizeStep_keys_mono (store : Store) (ki kj : Int) (k : Int)
    (h : k ∈ storeKeys store) : k ∈ storeKeys (normalizeStep store ki kj) := by
  unfold normalizeStep
  split
  · exact (mem_storeKeys_storeInsert _ _ _ _).mpr (Or.inl h)
  · split
    · exact (mem_storeKeys_storeInsert _ _ _ _).mpr (Or.inl h)
    · exact h

theorem normalizeStep_keys_from (store : Store) (ki kj : Int) (k : Int)
    (h : k ∈ storeKeys (normalizeStep store ki kj)) :
    k ∈ storeKeys store ∨ k = ki ∨ k = kj := by
  unfold normalizeStep at h
  split at h
  · rcases (mem_storeKeys_storeInsert _ _ _ _).mp h with hk | hk
    · exact Or.inl hk
    · exact Or.inr (Or.inl hk)
  · split at h
    · rcases (mem_storeKeys_storeInsert _ _ _ _).mp h with hk | hk
      · exact Or.inl hk
      · exact Or.inr (Or.inr hk)
    · exact Or.inl h

theorem normalizeStep_untouched (store : Store) (ki kj : Int) (k : Int)
    (hki : k ≠ ki) (hkj : k ≠ kj) :
    storeFind (normalizeStep store ki kj) k = storeFind store k := by
  unfold normalizeStep
  split
  · exact storeFind_storeInsert_ne _ _ _ _ hki
  · split
    · exact storeFind_storeInsert_ne _ _ _ _ hkj
    · rfl

/-! ### Loop invariants of the merge scan -/

/-- `combine_ways` never deletes a store entry: every live key stays live. -/
theorem combineLoop_keys_mono :
    ∀ (fuel : Nat) (store : Store) (ids rng : List Int) (i j : Nat)
      (st' : Store) (ids' rng' : List Int),
      combineLoop fuel store ids rng i j = some (st', ids', rng') →
      ∀ k ∈ storeKeys store, k ∈ storeKeys st' := by
  intro fuel
  induction fuel with
  | zero => intro store ids rng i j st' ids' rng' h; simp [combineLoop] at h
  | succ n ih =>
    intro store ids rng i j st' ids' rng' h k hk
    simp only [combineLoop] at h
    split at h
    · split at h
      · split at h
        · exact ih _ _ _ _ _ _ _ _ h k hk
        · split at h
          · split at h
            · exact absurd h (by simp)
            · rename_i nw store2 rng1 heq
              refine ih _ _ _ _ _ _ _ _ h k ?_
              have h1 := normalizeStep_keys_mono store (ids.getD i 0) (ids.getD j 0) k hk
              have h2 := (fuse_spec heq).2.2.2.2.2.2.2.1 k h1
              exact (mem_storeKeys_storeInsert _ _ _ _).mpr (Or.inl h2)
          · exact ih _ _ _ _ _ _ _ _ h k
              (normalizeStep_keys_mono store (ids.getD i 0) (ids.getD j 0) k hk)
      · exact ih _ _ _ _ _ _ _ _ h k hk
    · obtain ⟨rfl, rfl, rfl⟩ : store = st' ∧ ids = ids' ∧ rng = rng' := by
        have := Option.some.inj h
        exact ⟨congrArg Prod.fst this,
          congrArg (fun p => p.2.1) this, congrArg (fun p => p.2.2) this⟩
      exact hk

/-- A store entry whose key is live but not on the merge worklist is left
untouched by the whole scan. -/
theorem combineLoop_untouched :
    ∀ (fuel : Nat) (store : Store) (ids rng : List Int) (i j : Nat)
      (st' : Store) (ids' rng' : List Int),
      combineLoop fuel store ids rng i j = some (st', ids', rng') →
      ∀ k, k ∈ storeKeys store → k ∉ ids → storeFind st' k = storeFind store k := by
  intro fuel
  induction fuel with
  | zero => intro store ids rng i j st' ids' rng' h; simp [combineLoop] at h
  | succ n ih =>
    intro store ids rng i j st' ids' rng' h k hk hnotin
    simp only [combineLoop] at h
    by_cases hi : i < ids.length
    · rw [if_pos hi] at h
      by_cases hj : j < ids.length
      · rw [if_pos hj] at h
        by_cases hij : i = j
        · rw [if_pos hij] at h
          exact ih _ _ _ _ _ _ _ _ h k hk hnotin
        · rw [if_neg hij] at h
          have hkne_i : k ≠ ids.getD i 0 := fun hc => hnotin (hc ▸ getD_mem_of_lt hi)
          have hkne_j : k ≠ ids.getD j 0 := fun hc => hnotin (hc ▸ getD_mem_of_lt hj)
          by_cases htrig :
              fuseTrigger (normalizeStep store (ids.getD i 0) (ids.getD j 0))
                (ids.getD i 0) (ids.getD j 0)
          · rw [if_pos htrig] at h
            cases heq : fuse (ids.getD i 0) (ids.getD j 0)
                (normalizeStep store (ids.getD i 0) (ids.getD j 0)) rng with
            | none => rw [heq] at h; exact absurd h (by simp)
            | some tr =>
              obtain ⟨nw, store2, rng1⟩ := tr
              rw [heq] at h
              have hk1 : k ∈ storeKeys (normalizeStep store (ids.getD i 0) (ids.getD j 0)) :=
                normalizeStep_keys_mono _ _ _ _ hk
              obtain ⟨-, -, hfresh, -, -, -, -, hkeys12, -, huntouched⟩ := fuse_spec heq
              have hkne_nw : k ≠ nw.id := fun hc => hfresh (hc ▸ hk1)
              have hk2 : k ∈ storeKeys store2 := hkeys12 k hk1
              have hnotin1 : k ∉ (ids.set j nw.id).eraseIdx i := by
                intro hc
                rcases List.mem_or_eq_of_mem_set (List.mem_of_mem_eraseIdx hc) with hc' | hc'
                · exact hnotin hc'
                · exact hkne_nw hc'
              have hk3 : k ∈ storeKeys (storeInsert store2 nw.id nw) :=
                (mem_storeKeys_storeInsert _ _ _ _).mpr (Or.inl hk2)
              rw [ih _ _ _ _ _ _ _ _ h k hk3 hnotin1,
                storeFind_storeInsert_ne _ _ _ _ hkne_nw,
                huntouched k hkne_i hkne_j,
                normalizeStep_untouched _ _ _ _ hkne_i hkne_j]
          · rw [if_neg htrig] at h
            rw [ih _ _ _ _ _ _ _ _ h k (normalizeStep_keys_mono _ _ _ _ hk) hnotin,
              normalizeStep_untouched _ _ _ _ hkne_i hkne_j]
      · rw [if_neg hj] at h
        exact ih _ _ _ _ _ _ _ _ h k hk hnotin
    · rw [if_neg hi] at h
      obtain ⟨rfl, rfl, rfl⟩ : store = st' ∧ ids = ids' ∧ rng = rng' := by
        have := Option.some.inj h
        exact ⟨congrArg Prod.fst this,
          congrArg (fun p => p.2.1) this, congrArg (fun p => p.2.2) this⟩
      rfl

/-- Every id the scan returns is either one of the submitted ids or a fresh
synthetic id that was no live key when the scan started. -/
theorem combineLoop_ids_from :
    ∀ (fuel : Nat) (store : Store) (ids rng : List Int) (i j : Nat)
      (st' : Store) (ids' rng' : List Int),
      combineLoop fuel store ids rng i j = some (st', ids', rng') →
      ∀ x ∈ ids', x ∈ ids ∨ x ∉ storeKeys store := by
  intro fuel
  induction fuel with
  | zero => intro store ids rng i j st' ids' rng' h; simp [combineLoop] at h
  | succ n ih =>
    intro store ids rng i j st' ids' rng' h x hx
    simp only [combineLoop] at h
    split at h
    · split at h
      · split at h
        · exact ih _ _ _ _ _ _ _ _ h x hx
        · split at h
          · split at h
            · exact absurd h (by simp)
            · rename_i hi hj hij htrig nw store2 rng1 heq
              obtain ⟨-, -, hfresh, -⟩ := fuse_spec heq
              rcases ih _ _ _ _ _ _ _ _ h x hx with hx1 | hx1
              · rcases List.mem_or_eq_of_mem_set (List.mem_of_mem_eraseIdx hx1) with hc | hc
                · exact Or.inl hc
                · subst hc
                  exact Or.inr (fun hc' => hfresh (normalizeStep_keys_mono _ _ _ _ hc'))
              · refine Or.inr (fun hc => hx1 ?_)
                refine (mem_storeKeys_storeInsert _ _ _ _).mpr (Or.inl ?_)
                exact (fuse_spec heq).2.2.2.2.2.2.2.1 x (normalizeStep_keys_mono _ _ _ _ hc)
          · rename_i hi hj hij htrig
            rcases ih _ _ _ _ _ _ _ _ h x hx with hx1 | hx1
            · exact Or.inl hx1
            · exact Or.inr (fun hc => hx1 (normalizeStep_keys_mono _ _ _ _ hc))
      · exact ih _ _ _ _ _ _ _ _ h x hx
    · obtain ⟨rfl, rfl, rfl⟩ : store = st' ∧ ids = ids' ∧ rng = rng' := by
        have := Option.some.inj h
        exact ⟨congrArg Prod.fst this,
          congrArg (fun p => p.2.1) this, congrArg (fun p => p.2.2) this⟩
      exact Or.inl hx

/-- If every submitted id is a live key, every returned id is a live key of
the final store (the fused way's key is inserted before it enters the
worklist). -/
theorem combineLoop_ids_keys :
    ∀ (fuel : Nat) (store : Store) (ids rng : List Int) (i j : Nat)
      (st' : Store) (ids' rng' : List Int),
      combineLoop fuel store ids rng i j = some (st', ids', rng') →
      (∀ x ∈ ids, x ∈ storeKeys store) →
      ∀ x ∈ ids', x ∈ storeKeys st' := by
  intro fuel
  induction fuel with
  | zero => intro store ids rng i j st' ids' rng' h; simp [combineLoop] at h
  | succ n ih =>
    intro store ids rng i j st' ids' rng' h hids x hx
    simp only [combineLoop] at h
    split at h
    · split at h
      · split at h
        · exact ih _ _ _ _ _ _ _ _ h hids x hx
        · split at h
          · split at h
            · exact absurd h (by simp)
            · rename_i hi hj hij htrig nw store2 rng1 heq
              refine ih _ _ _ _ _ _ _ _ h ?_ x hx
              intro y hy
              rcases List.mem_or_eq_of_mem_set (List.mem_of_mem_eraseIdx hy) with hc | hc
              · refine (mem_storeKeys_storeInsert _ _ _ _).mpr (Or.inl ?_)
                exact (fuse_spec heq).2.2.2.2.2.2.2.1 y
                  (normalizeStep_keys_mono _ _ _ _ (hids y hc))
              · exact (mem_storeKeys_storeInsert _ _ _ _).mpr (Or.inr hc)
          · rename_i hi hj hij htrig
            refine ih _ _ _ _ _ _ _ _ h ?_ x hx
            exact fun y hy => normalizeStep_keys_mono _ _ _ _ (hids y hy)
      · exact ih _ _ _ _ _ _ _ _ h hids x hx
    · obtain ⟨rfl, rfl, rfl⟩ : store = st' ∧ ids = ids' ∧ rng = rng' := by
        have := Option.some.inj h
        exact ⟨congrArg Prod.fst this,
          congrArg (fun p => p.2.1) this, congrArg (fun p => p.2.2) this⟩
      exact hids x hx

/-! ### Properties of relation resolution -/

theorem outerMark_not_mem (ids : List Int) :
    ∀ (st : Store) (r : Tags) (k : Int), k ∉ ids →
      storeFind (outerMark st ids r) k = storeFind st k := by
  induction ids with
  | nil => intro st r k _; rfl
  | cons a t ih =>
    intro st r k hk
    have hka : k ≠ a := fun hc => hk (hc ▸ List.mem_cons_self a t)
    have hkt : k ∉ t := fun hc => hk (List.mem_cons_of_mem a hc)
    unfold outerMark at ih ⊢
    rw [List.foldl_cons, ih _ _ _ hkt, storeFind_storeInsert_ne _ _ _ _ hka]

theorem getWay_outerMark_not_mem (ids : List Int) (st : Store) (r : Tags)
    (k : Int) (h : k ∉ ids) : getWay (outerMark st ids r) k = getWay st k := by
  unfold getWay
  rw [outerMark_not_mem ids st r k h]

/-- After the outer loop, every processed way has role `outer` and its tags
are, pointwise, the relation's tags overlaid on whatever the way carried
before the loop (relation wins per key). -/
theorem outerMark_mem (ids : List Int) :
    ∀ (st : Store) (r : Tags) (k : Int), k ∈ ids →
      (getWay (outerMark st ids r) k).in_out = some "outer" ∧
      ∀ s, tagsGet ((getWay (outerMark st ids r) k).tags.getD []) s =
        ((tagsGet r s).orElse (fun _ => tagsGet ((getWay st k).tags.getD []) s)) := by
  induction ids with
  | nil => intro st r k hk; exact absurd hk (List.not_mem_nil k)
  | cons a t ih =>
    intro st r k hk
    by_cases hka : k = a
    · subst hka
      by_cases hkt : k ∈ t
      · have hstep : getWay
            (storeInsert st k
              { getWay st k with
                in_out := some "outer"
                tags := some (dictUpdate ((getWay st k).tags.getD []) r) }) k =
            { getWay st k with
              in_out := some "outer"
              tags := some (dictUpdate ((getWay st k).tags.getD []) r) } :=
          getWay_storeInsert_self _ _ _
        obtain ⟨h1, h2⟩ := ih
          (storeInsert st k
            { getWay st k with
              in_out := some "outer"
              tags := some (dictUpdate ((getWay st k).tags.getD []) r) }) r k hkt
        refine ⟨by unfold outerMark at h1 ⊢; rw [List.foldl_cons]; exact h1, ?_⟩
        intro s
        have h2s := h2 s
        rw [hstep] at h2s
        simp only [Option.getD_some] at h2s
        rw [tagsGet_dictUpdate] at h2s
        unfold outerMark at h2s ⊢
        rw [List.foldl_cons]
        rw [h2s]
        cases tagsGet r s <;> simp [Option.orElse]
      · have hstep : getWay (outerMark st (k :: t) r) k =
            { getWay st k with
              in_out := some "outer"
              tags := some (dictUpdate ((getWay st k).tags.getD []) r) } := by
          unfold outerMark
          rw [List.foldl_cons]
          have := getWay_outerMark_not_mem t
            (storeInsert st k
              { getWay st k with
                in_out := some "outer"
                tags := some (dictUpdate ((getWay st k).tags.getD []) r) }) r k hkt
          unfold outerMark at this
          rw [this, getWay_storeInsert_self]
        rw [hstep]
        refine ⟨rfl, ?_⟩
        intro s
        simp only [Option.getD_some]
        rw [tagsGet_dictUpdate]
    · have hkt : k ∈ t := by
        rcases List.mem_cons.mp hk with hc | hc
        · exact absurd hc hka
        · exact hc
      obtain ⟨h1, h2⟩ := ih
        (storeInsert st a
          { getWay st a with
            in_out := some "outer"
            tags := some (dictUpdate ((getWay st a).tags.getD []) r) }) r k hkt
      have hsame : getWay
          (storeInsert st a
            { getWay st a with
              in_out := some "outer"
              tags := some (dictUpdate ((getWay st a).tags.getD []) r) }) k =
          getWay st k := getWay_storeInsert_ne _ _ _ _ hka
      rw [hsame] at h2
      exact ⟨by unfold outerMark at h1 ⊢; rw [List.foldl_cons]; exact h1,
        by unfold outerMark at h2 ⊢; rw [List.foldl_cons]; exact h2⟩

theorem innerMark_not_mem (ids : List Int) :
    ∀ (st : Store) (k : Int), k ∉ ids →
      storeFind (innerMark st ids) k = storeFind st k := by
  induction ids with
  | nil => intro st k _; rfl
  | cons a t ih =>
    intro st k hk
    have hka : k ≠ a := fun hc => hk (hc ▸ List.mem_cons_self a t)
    have hkt : k ∉ t := fun hc => hk (List.mem_cons_of_mem a hc)
    unfold innerMark at ih ⊢
    rw [List.foldl_cons, ih _ _ hkt, storeFind_storeInsert_ne _ _ _ _ hka]

theorem getWay_innerMark_not_mem (ids : List Int) (st : Store) (k : Int)
    (h : k ∉ ids) : getWay (innerMark st ids) k = getWay st k := by
  unfold getWay
  rw [innerMark_not_mem ids st k h]

/-- After the inner loop, every processed way is exactly its previous value
with the role overwritten to `inner` (tags untouched). -/
theorem innerMark_mem (ids : List Int) :
    ∀ (st : Store) (k : Int), k ∈ ids →
      getWay (innerMark st ids) k = { getWay st k with in_out := some "inner" } := by
  induction ids with
  | nil => intro st k hk; exact absurd hk (List.not_mem_nil k)
  | cons a t ih =>
    intro st k hk
    by_cases hka : k = a
    · subst hka
      by_cases hkt : k ∈ t
      · have h1 := ih (storeInsert st k { getWay st k with in_out := some "inner" }) k hkt
        rw [getWay_storeInsert_self] at h1
        unfold innerMark at h1 ⊢
        rw [List.foldl_cons]
        exact h1
      · unfold innerMark
        rw [List.foldl_cons]
        have h1 := getWay_innerMark_not_mem t
          (storeInsert st k { getWay st k with in_out := some "inner" }) k hkt
        unfold innerMark at h1
        rw [h1, getWay_storeInsert_self]
    · have hkt : k ∈ t := by
        rcases List.mem_cons.mp hk with hc | hc
        · exact absurd hc hka
        · exact hc
      have h1 := ih (storeInsert st a { getWay st a with in_out := some "inner" }) k hkt
      rw [getWay_storeInsert_ne _ _ _ _ hka] at h1
      unfold innerMark at h1 ⊢
      rw [List.foldl_cons]
      exact h1

/-- The member partition, characterised: present way members with role
`outer` go to `outer_ids`, present way members with any other role to
`inner_ids`, both in member order; everything else is dropped. -/
theorem partitionMembers_eq (keys : List Int) (members : List RelMember) :
    partitionMembers keys members =
      ((members.filter (fun m =>
          m.type_value == "way" && keys.contains m.ref && m.role == "outer")).map
          RelMember.ref,
       (members.filter (fun m =>
          m.type_value == "way" && keys.contains m.ref && !(m.role == "outer"))).map
          RelMember.ref) := by
  have go : ∀ (ms : List RelMember) (acc : List Int × List Int),
      ms.foldl
        (fun acc m =>
          if m.type_value == "way" then
            if keys.contains m.ref then
              if m.role == "outer" then (acc.1 ++ [m.ref], acc.2)
              else (acc.1, acc.2 ++ [m.ref])
            else acc
          else acc)
        acc =
      (acc.1 ++ (ms.filter (fun m =>
          m.type_value == "way" && keys.contains m.ref && m.role == "outer")).map
          RelMember.ref,
       acc.2 ++ (ms.filter (fun m =>
          m.type_value == "way" && keys.contains m.ref && !(m.role == "outer"))).map
          RelMember.ref) := by
    intro ms
    induction ms with
    | nil => intro acc; simp
    | cons m t ih =>
      intro acc
      rw [List.foldl_cons]
      by_cases hw : (m.type_value == "way") = true
      · by_cases hc : (keys.contains m.ref) = true
        · have hcm : m.ref ∈ keys := by simpa using hc
          by_cases hr : (m.role == "outer") = true
          · rw [if_pos hw, if_pos hc, if_pos hr, ih]
            simp [List.filter_cons, hw, hc, hr, hcm]
          · have hr' : (m.role == "outer") = false := by
              cases hx : m.role == "outer"
              · rfl
              · exact absurd hx hr
            rw [if_pos hw, if_pos hc, if_neg (by simp [hr']), ih]
            simp [List.filter_cons, hw, hc, hr', hcm]
        · have hc' : (keys.contains m.ref) = false := by
            cases hx : keys.contains m.ref
            · rfl
            · exact absurd hx hc
          have hcm : m.ref ∉ keys := by simpa using hc'
          rw [if_pos hw, if_neg (by simpa using hc'), ih]
          simp [List.filter_cons, hw, hc', hcm]
      · have hw' : (m.type_value == "way") = false := by
          cases hx : m.type_value == "way"
          · rfl
          · exact absurd hx hw
        rw [if_neg (by simp [hw']), ih]
        simp [List.filter_cons, hw']
  unfold partitionMembers
  rw [go]
  simp

/-- Both partition components refer only to live store keys. -/
theorem partitionMembers_sub (keys : List Int) (members : List RelMember) :
    (∀ x ∈ (partitionMembers keys members).1, x ∈ keys) ∧
    (∀ x ∈ (partitionMembers keys members).2, x ∈ keys) := by
  rw [partitionMembers_eq]
  constructor
  · intro x hx
    obtain ⟨m, hm, rfl⟩ := List.mem_map.mp hx
    have := List.of_mem_filter hm
    simp only [Bool.and_eq_true] at this
    simpa using this.1.2
  · intro x hx
    obtain ⟨m, hm, rfl⟩ := List.mem_map.mp hx
    have := List.of_mem_filter hm
    simp only [Bool.and_eq_true] at this
    simpa using this.1.2

/-! ### Claim theorems -/

/-- C2 (code bug): every way synthesized by a fusion of `combine_ways`
carries `None` tags, not the overlay of its two sources —
`new_way.tags = ways[i].tags.update(ways[j].tags)` assigns the return value
of Python's `dict.update`, which is always `None`; the overlay lands, in
place, in way `i`'s own tags instead (the in-source comment
"tady zlobi ten update" flags the slip). -/
theorem C2_fused_tags_are_none (ki kj : Int) (store : Store) (rng : List Int)
    (nw : Way) (st2 : Store) (rng1 : List Int)
    (h : fuse ki kj store rng = some (nw, st2, rng1)) : nw.tags = none :=
  (fuse_spec h).2.1

/-- C2 witness: fusing ways 1 and 2 of `pairStore` yields a way whose tags
are `None`. -/
theorem C2_fused_tags_witness :
    (fuse 1 2 pairStore [-1]).isSome = true ∧
    ((fuse 1 2 pairStore [-1]).getD (default, [], [])).1.tags = none := by
  refine ⟨by decide, ?_⟩
  cases hf : fuse 1 2 pairStore [-1] with
  | none => exact absurd hf (by decide)
  | some tr =>
    obtain ⟨nw, st2, rng1⟩ := tr
    exact C2_fused_tags_are_none 1 2 pairStore [-1] nw st2 rng1 hf

/-- C5: the synthetic id assigned by a fusion is distinct from every id
currently present in the store (hence from all OSM-assigned ids and from
every earlier synthetic id, which are store keys by then); the draws it
discarded beforehand were exactly the colliding ones, and a collision is
never surfaced as an error. -/
theorem C5_synthetic_id_fresh (ki kj : Int) (store : Store) (rng : List Int)
    (nw : Way) (st2 : Store) (rng1 : List Int)
    (h : fuse ki kj store rng = some (nw, st2, rng1)) :
    nw.id ∉ storeKeys store ∧
    ∃ pre, rng = pre ++ nw.id :: rng1 ∧ ∀ x ∈ pre, x ∈ storeKeys store :=
  ⟨(fuse_spec h).2.2.1, (fuse_spec h).2.2.2.1⟩

/-- C5 witness: with draws [1, -1] over `pairStore` (the first draw collides
with live key 1), the fusion retries and settles on -1, no store key. -/
theorem C5_synthetic_id_witness :
    (fuse 1 2 pairStore [1, -1]).isSome = true ∧
    ((fuse 1 2 pairStore [1, -1]).getD (default, [], [])).1.id ∉ storeKeys pairStore := by
  refine ⟨by decide, ?_⟩
  cases hf : fuse 1 2 pairStore [1, -1] with
  | none => exact absurd hf (by decide)
  | some tr =>
    obtain ⟨nw, st2, rng1⟩ := tr
    exact (C5_synthetic_id_fresh 1 2 pairStore [1, -1] nw st2 rng1 hf).1

/-- C6 counterexample: `parse_ways` decides `is_area` by comparing the first
and last PROJECTED COORDINATES (`coords[0] == coords[-1]`), not node
identifiers — the four-node triangular ring `coincidentRaw`, a valid
polygon input whose endpoint nodes are distinct (ids 1 and 9) but sit at
the same coordinates, is stored without error with `is_area = true` and
polygon geometry, refuting the claimed "iff first and last node share an
identifier". -/
theorem C6_coordinate_closure_counterexample :
    (parse_way projId coincidentRaw).isSome = true ∧
    ((parse_way projId coincidentRaw).getD default).is_area = true ∧
    ((parse_way projId coincidentRaw).getD default).line =
      Geom.poly [(0, 0), (1, 0), (1, 1), (0, 0)] ∧
    hdId ((parse_way projId coincidentRaw).getD default) ≠
      tlId ((parse_way projId coincidentRaw).getD default) := by
  decide

/-- C6 (amended): every way the parse actually stores has `is_area = true`
iff its first and last projected coordinates coincide (shared node ids
imply this but are not required); when closed the geometry is the polygon
over the projected coordinates, otherwise the polyline through them in
input order.  Degenerate coordinate-closed ways (too few coordinates for a
valid ring) make `geometry.Polygon` raise and store nothing, so the
statement conditions on a successful store. -/
theorem C6_area_iff_projected_coords (proj : Int × Int → Int × Int)
    (rw : RawWay) (w : Way) (h : parse_way proj rw = some w) :
    (w.is_area = true ↔
      (wayCoords proj rw.nodes).head? = (wayCoords proj rw.nodes).getLast?) ∧
    (w.is_area = true → w.line = Geom.poly (wayCoords proj rw.nodes)) ∧
    (w.is_area = false → w.line = Geom.line (wayCoords proj rw.nodes)) := by
  simp only [parse_way] at h
  by_cases hg :
      ((wayCoords proj rw.nodes).head? == (wayCoords proj rw.nodes).getLast?) = true ∧
        (wayCoords proj rw.nodes).length < 4
  · rw [if_pos hg] at h
    exact absurd h (by simp)
  · rw [if_neg hg] at h
    have hw := (Option.some.inj h).symm
    subst hw
    refine ⟨?_, ?_, ?_⟩
    · simp only
      constructor
      · exact fun hb => eq_of_beq hb
      · exact fun he => beq_iff_eq.mpr he
    · intro ha
      simp only at ha ⊢
      rw [if_pos ha]
    · intro ha
      simp only at ha ⊢
      rw [if_neg (by rw [ha]; simp)]

/-- C6 witness: the open two-node way 8 instantiates the amended claim. -/
theorem C6_area_iff_witness :
    (parse_way projId openRaw).isSome = true ∧
    (((parse_way projId openRaw).getD default).is_area = true ↔
      (wayCoords projId openRaw.nodes).head? = (wayCoords projId openRaw.nodes).getLast?) := by
  refine ⟨by decide, ?_⟩
  cases hw : parse_way projId openRaw with
  | none => exact absurd hw (by decide)
  | some w => exact (C6_area_iff_projected_coords projId openRaw w hw).1

/-- C9 counterexample: the orientation normalization of `combine_ways`
reverses a stored constituent's node list in place without touching its
geometry: after merging ways 5 (nodes 1,2) and 6 (nodes 1,3), the store
entry for way 5 has node sequence 2,1 but still the polyline built for
1,2 — its geometry is no longer derivable from its nodes. -/
theorem C9_divergence_counterexample :
    shareRun.isSome = true ∧
    (getWay (shareRun.getD ([], [], [])).1 5).nodes.map Node.id = [2, 1] ∧
    (getWay (shareRun.getD ([], [], [])).1 5).line ≠
      derivedGeom projId (getWay (shareRun.getD ([], [], [])).1 5) := by
  decide

/-- C9 (amended): the invariant holds at way construction — every way
`parse_ways` actually stores carries exactly the geometry derived from its
node sequence via projection (polygon kind iff `is_area`, polyline
otherwise) — but fusion's in-place node reversal can break it for
constituent ways left in the store. -/
theorem C9_parse_way_geometry_derived (proj : Int × Int → Int × Int)
    (rw : RawWay) (w : Way) (h : parse_way proj rw = some w) :
    w.line = derivedGeom proj w := by
  simp only [parse_way] at h
  by_cases hg :
      ((wayCoords proj rw.nodes).head? == (wayCoords proj rw.nodes).getLast?) = true ∧
        (wayCoords proj rw.nodes).length < 4
  · rw [if_pos hg] at h
    exact absurd h (by simp)
  · rw [if_neg hg] at h
    have hw := (Option.some.inj h).symm
    subst hw
    rfl

/-- C9 witness: the open two-node way 8 is stored with derivable geometry. -/
theorem C9_parse_way_geometry_witness :
    (parse_way projId openRaw).isSome = true ∧
    ((parse_way projId openRaw).getD default).line =
      derivedGeom projId ((parse_way projId openRaw).getD default) := by
  refine ⟨by decide, ?_⟩
  cases hw : parse_way projId openRaw with
  | none => exact absurd hw (by decide)
  | some w => exact C9_parse_way_geometry_derived projId openRaw w hw

/-- C8 counterexample: after the fusion of ways 1 and 2 the store still
holds entries for BOTH constituents alongside the fused way — the two
source keys are never removed from the store, refuting the claimed
atomic remove-and-insert. -/
theorem C8_constituents_retained_counterexample :
    pairRun.isSome = true ∧
    (pairRun.getD ([], [], [])).2.1 = [-1] ∧
    storeFind (pairRun.getD ([], [], [])).1 1 ≠ none ∧
    storeFind (pairRun.getD ([], [], [])).1 2 ≠ none ∧
    storeFind (pairRun.getD ([], [], [])).1 (-1) ≠ none := by
  decide

/-- C8 (amended): fusion inserts the fused way's key into the store but
removes the two source ways only from the scan's worklist, never from the
store: every key live before the scan is still live after it, and (when the
submitted ids are live keys) every returned id is a live key of the final
store. -/
theorem C8_store_never_deletes (fuel : Nat) (store : Store) (ids rng : List Int)
    (st' : Store) (ids' rng' : List Int)
    (h : combine_ways fuel store ids rng = some (st', ids', rng')) :
    (∀ k ∈ storeKeys store, k ∈ storeKeys st') ∧
    ((∀ x ∈ ids, x ∈ storeKeys store) → ∀ x ∈ ids', x ∈ storeKeys st') :=
  ⟨combineLoop_keys_mono fuel store ids rng 0 0 st' ids' rng' h,
   fun hids => combineLoop_ids_keys fuel store ids rng 0 0 st' ids' rng' h hids⟩

/-- C8 witness: the two-way fusion instance keeps keys 1 and 2 live. -/
theorem C8_store_never_deletes_witness :
    pairRun.isSome = true ∧
    (∀ k ∈ storeKeys pairStore, k ∈ storeKeys (pairRun.getD ([], [], [])).1) := by
  refine ⟨by decide, ?_⟩
  cases hr : pairRun with
  | none => exact absurd hr (by decide)
  | some tr =>
    obtain ⟨st', ids', rng'⟩ := tr
    exact (C8_store_never_deletes 100 pairStore [1, 2] [-1] st' ids' rng' hr).1

/-- C7 counterexample: on ways (1,2), (3,1), (4,1), (3,4) the first
`combine_ways` pass returns TWO way ids, and running `combine_ways` again on
exactly the id set it returned performs a further fusion (a brand-new way is
created) and returns ONE id — the second pass neither performs no fusion nor
yields the same partition. -/
theorem C7_not_idempotent_counterexample :
    quadRun1.isSome = true ∧
    (quadRun1.getD ([], [], [])).2.1 = [-2, 3] ∧
    quadRun2.isSome = true ∧
    (quadRun2.getD ([], [], [])).2.1 = [-3] ∧
    storeFind (quadRun2.getD ([], [], [])).1 (-3) ≠ none := by
  decide

/-- C7 (amended): a single `combine_ways` pass is not exhaustive — it can
terminate with two fusable non-area ways remaining (here the chains 4,3,1,2
and 4,1, which still share endpoint 4), so a second pass over the returned
id set can fuse further, yielding a strictly coarser partition (the single
chain 2,1,3,4,1). -/
theorem C7_second_pass_fuses :
    ((getWay (quadRun1.getD ([], [], [])).1 (-2)).nodes.map Node.id = [4, 3, 1, 2] ∧
     (getWay (quadRun1.getD ([], [], [])).1 3).nodes.map Node.id = [4, 1] ∧
     (getWay (quadRun1.getD ([], [], [])).1 (-2)).is_area = false ∧
     (getWay (quadRun1.getD ([], [], [])).1 3).is_area = false ∧
     hdId (getWay (quadRun1.getD ([], [], [])).1 (-2)) =
       hdId (getWay (quadRun1.getD ([], [], [])).1 3)) ∧
    ((quadRun2.getD ([], [], [])).2.1.length = 1 ∧
     (getWay (quadRun2.getD ([], [], [])).1 (-3)).nodes.map Node.id = [2, 1, 3, 4, 1]) := by
  decide

/-- C1: every fusion synthesizes a way whose node sequence is
`i.nodes ++ j.nodes[1:]` (post-normalization; the junction node appears
once), and whenever its first and last node identifiers coincide it is
marked `is_area = true` with polygon geometry; concretely, the cycle
A(1,2), B(2,3), C(3,1) merges to the single closed area way 1,2,3,1. -/
theorem C1_fusion_nodes_and_closure :
    (∀ (ki kj : Int) (store : Store) (rng : List Int) (nw : Way) (st2 : Store)
      (rng1 : List Int), fuse ki kj store rng = some (nw, st2, rng1) →
      nw.nodes = (getWay store ki).nodes ++ (getWay store kj).nodes.tail ∧
      ((nw.nodes.head?.map Node.id) = (nw.nodes.getLast?.map Node.id) →
        nw.is_area = true ∧
        nw.line = Geom.poly (geomCoords
          (linemerge2 (getWay store ki).line (getWay store kj).line)))) ∧
    (chainRun.isSome = true ∧
     (chainRun.getD ([], [], [])).2.1 = [-2] ∧
     (getWay (chainRun.getD ([], [], [])).1 (-2)).nodes.map Node.id = [1, 2, 3, 1] ∧
     (getWay (chainRun.getD ([], [], [])).1 (-2)).is_area = true ∧
     (getWay (chainRun.getD ([], [], [])).1 (-2)).line =
       Geom.poly [(11, 21), (12, 22), (13, 23), (11, 21)]) := by
  constructor
  · intro ki kj store rng nw st2 rng1 h
    obtain ⟨hn, -, -, -, hA, hP, -, -, -, -⟩ := fuse_spec h
    refine ⟨hn, ?_⟩
    intro hc
    have hA' : nw.is_area = true := by
      rw [hA]
      exact beq_iff_eq.mpr hc
    exact ⟨hA', hP hA'⟩
  · exact ⟨by decide, by decide, by decide, by decide, by decide⟩

/-- C1 witness: the fusion of ways 1 and 2 of `pairStore` concatenates the
node sequences with the junction de-duplicated. -/
theorem C1_fusion_witness :
    (fuse 1 2 pairStore [-1]).isSome = true ∧
    ((fuse 1 2 pairStore [-1]).getD (default, [], [])).1.nodes =
      (getWay pairStore 1).nodes ++ (getWay pairStore 2).nodes.tail := by
  refine ⟨by decide, ?_⟩
  cases hf : fuse 1 2 pairStore [-1] with
  | none => exact absurd hf (by decide)
  | some tr =>
    obtain ⟨nw, st2, rng1⟩ := tr
    exact (C1_fusion_nodes_and_closure.1 1 2 pairStore [-1] nw st2 rng1 hf).1

theorem draw_id_nonpos (a b : Nat) : draw_id a b ≤ 0 := by
  unfold draw_id
  have h1 : (0 : Int) ≤ 10 ^ 15 * (a : Int) / (b : Int) := by positivity
  omega

/-- When every remaining draw is non-positive and every submitted id is a
live key, every key of the final store is an original key or non-positive. -/
theorem combineLoop_new_keys :
    ∀ (fuel : Nat) (store : Store) (ids rng : List Int) (i j : Nat)
      (st' : Store) (ids' rng' : List Int),
      combineLoop fuel store ids rng i j = some (st', ids', rng') →
      (∀ x ∈ ids, x ∈ storeKeys store) →
      (∀ c ∈ rng, c ≤ 0) →
      ∀ k ∈ storeKeys st', k ∈ storeKeys store ∨ k ≤ 0 := by
  intro fuel
  induction fuel with
  | zero => intro store ids rng i j st' ids' rng' h; simp [combineLoop] at h
  | succ n ih =>
    intro store ids rng i j st' ids' rng' h hids hrng k hk
    simp only [combineLoop] at h
    by_cases hi : i < ids.length
    · rw [if_pos hi] at h
      by_cases hj : j < ids.length
      · rw [if_pos hj] at h
        by_cases hij : i = j
        · rw [if_pos hij] at h
          exact ih _ _ _ _ _ _ _ _ h hids hrng k hk
        · rw [if_neg hij] at h
          have hki : ids.getD i 0 ∈ storeKeys store := hids _ (getD_mem_of_lt hi)
          have hkj : ids.getD j 0 ∈ storeKeys store := hids _ (getD_mem_of_lt hj)
          have hnormfrom : ∀ x,
              x ∈ storeKeys (normalizeStep store (ids.getD i 0) (ids.getD j 0)) →
              x ∈ storeKeys store := by
            intro x hx
            rcases normalizeStep_keys_from store (ids.getD i 0) (ids.getD j 0) x hx with
              hc | hc | hc
            · exact hc
            · exact hc ▸ hki
            · exact hc ▸ hkj
          by_cases htrig :
              fuseTrigger (normalizeStep store (ids.getD i 0) (ids.getD j 0))
                (ids.getD i 0) (ids.getD j 0)
          · rw [if_pos htrig] at h
            cases heq : fuse (ids.getD i 0) (ids.getD j 0)
                (normalizeStep store (ids.getD i 0) (ids.getD j 0)) rng with
            | none => rw [heq] at h; exact absurd h (by simp)
            | some tr =>
              obtain ⟨nw, store2, rng1⟩ := tr
              rw [heq] at h
              obtain ⟨-, -, -, ⟨pre, hpre, -⟩, -, -, -, hmono, hfrom, -⟩ := fuse_spec heq
              have hnwid : nw.id ≤ 0 := hrng nw.id (by rw [hpre]; simp)
              have hrng1 : ∀ c ∈ rng1, c ≤ 0 := by
                intro c hc
                exact hrng c (by rw [hpre]; simp [hc])
              have hids1 : ∀ x ∈ (ids.set j nw.id).eraseIdx i,
                  x ∈ storeKeys (storeInsert store2 nw.id nw) := by
                intro y hy
                rcases List.mem_or_eq_of_mem_set (List.mem_of_mem_eraseIdx hy) with hc | hc
                · exact (mem_storeKeys_storeInsert _ _ _ _).mpr
                    (Or.inl (hmono y (normalizeStep_keys_mono _ _ _ _ (hids y hc))))
                · exact (mem_storeKeys_storeInsert _ _ _ _).mpr (Or.inr hc)
              rcases ih _ _ _ _ _ _ _ _ h hids1 hrng1 k hk with hc | hc
              · rcases (mem_storeKeys_storeInsert _ _ _ _).mp hc with hc2 | hc2
                · rcases hfrom k hc2 with hc3 | hc3 | hc3
                  · exact Or.inl (hnormfrom k hc3)
                  · exact Or.inl (hc3 ▸ hki)
                  · exact Or.inl (hc3 ▸ hkj)
                · exact Or.inr (hc2 ▸ hnwid)
              · exact Or.inr hc
          · rw [if_neg htrig] at h
            have hids1 : ∀ x ∈ ids,
                x ∈ storeKeys (normalizeStep store (ids.getD i 0) (ids.getD j 0)) :=
              fun y hy => normalizeStep_keys_mono _ _ _ _ (hids y hy)
            rcases ih _ _ _ _ _ _ _ _ h hids1 hrng k hk with hc | hc
            · exact Or.inl (hnormfrom k hc)
            · exact Or.inr hc
      · rw [if_neg hj] at h
        exact ih _ _ _ _ _ _ _ _ h hids hrng k hk
    · rw [if_neg hi] at h
      obtain ⟨rfl, rfl, rfl⟩ : store = st' ∧ ids = ids' ∧ rng = rng' := by
        have := Option.some.inj h
        exact ⟨congrArg Prod.fst this,
          congrArg (fun p => p.2.1) this, congrArg (fun p => p.2.2) this⟩
      exact Or.inl hk

/-- C10: every synthetic id is drawn as `int(-10^15 * random())`, which is
non-positive for every exact draw a/b, and (when the submitted ids are live
keys, as on every pipeline call) every key the merge scan adds to the store
comes from such a draw — so in the final store every positive key is an
original way key and every fused way's key is at most zero. -/
theorem C10_synthetic_ids_nonpositive :
    (∀ a b : Nat, draw_id a b ≤ 0) ∧
    (∀ (draws : List (Nat × Nat)) (fuel : Nat) (store : Store) (ids : List Int)
      (i j : Nat) (st' : Store) (ids' rng' : List Int),
      combineLoop fuel store ids (draws.map fun p => draw_id p.1 p.2) i j =
        some (st', ids', rng') →
      (∀ x ∈ ids, x ∈ storeKeys store) →
      ∀ k ∈ storeKeys st', k ∉ storeKeys store → k ≤ 0) := by
  refine ⟨draw_id_nonpos, ?_⟩
  intro draws fuel store ids i j st' ids' rng' h hids k hk hknot
  have hrng : ∀ c ∈ draws.map (fun p : Nat × Nat => draw_id p.1 p.2), c ≤ 0 := by
    intro c hc
    obtain ⟨p, -, rfl⟩ := List.mem_map.mp hc
    exact draw_id_nonpos p.1 p.2
  rcases combineLoop_new_keys fuel store ids _ i j st' ids' rng' h hids hrng k hk with
    hc | hc
  · exact absurd hc hknot
  · exact hc

/-- C10 witness: the merge over `pairStore` with the single exact draw 1/2
adds only the key -500000000000000, which is non-positive. -/
theorem C10_synthetic_ids_witness :
    c10Run.isSome = true ∧
    (∀ x ∈ [(1 : Int), 2], x ∈ storeKeys pairStore) ∧
    (∀ k ∈ storeKeys (c10Run.getD ([], [], [])).1, k ∉ storeKeys pairStore → k ≤ 0) := by
  refine ⟨by decide, by decide, ?_⟩
  cases hr : c10Run with
  | none => exact absurd hr (by decide)
  | some tr =>
    obtain ⟨st', ids', rng'⟩ := tr
    exact C10_synthetic_ids_nonpositive.2 [((1 : Nat), (2 : Nat))] 40 pairStore
      [1, 2] 0 0 st' ids' rng' hr (by decide)

theorem is_obstacle_iff (obst notObst : RuleSet) (tags : Tags) :
    is_obstacle obst notObst tags = true ↔ obstacle_rule_matches obst notObst tags := by
  unfold is_obstacle obstacle_rule_matches
  rw [List.any_eq_true]
  constructor
  · rintro ⟨kv, hkv, hb⟩
    refine ⟨kv, hkv, ?_⟩
    cases hg : ruleGet obst kv.1 with
    | none => rw [hg] at hb; simp at hb
    | some vals =>
      rw [hg] at hb
      simp only [Bool.or_eq_true, Bool.and_eq_true] at hb
      refine ⟨vals, rfl, ?_⟩
      rcases hb with hb | ⟨hb1, hb2⟩
      · exact Or.inl (by simpa using hb)
      · refine Or.inr ⟨by simpa using hb1, by simpa using hb2⟩
  · rintro ⟨kv, hkv, vals, hg, hcase⟩
    refine ⟨kv, hkv, ?_⟩
    rw [hg]
    rcases hcase with hin | ⟨hstar, hnot⟩
    · simp [hin]
    · simp [hstar, hnot]

/-- C4: a node absent from the way-membership set yields an obstacle way iff
some tag key matches the obstacle rules — the node's value is listed, or the
wildcard `*` is listed and the value is not excluded by the not-obstacle
rules (so `K -> *` with not-obstacle `K -> V` does NOT classify value V) —
and the produced way is exactly one Obstacle way: the node's id,
`is_area = true`, the node's tags, a disk of the fixed radius at the node's
projected position. -/
theorem C4_obstacle_classification (proj : Int × Int → Int × Int)
    (wni : List Int) (obst notObst : RuleSet) (n : Node) (h : n.id ∉ wni) :
    ((∃ w, parse_node proj wni obst notObst n = some w) ↔
      obstacle_rule_matches obst notObst n.tags) ∧
    (∀ w, parse_node proj wni obst notObst n = some w →
      w = { id := n.id, nodes := [], is_area := true, tags := some n.tags,
            line := Geom.disk (proj (n.lat, n.lon)) OBSTACLE_RADIUS,
            in_out := none }) := by
  have hni : ¬(wni.contains n.id = true) := by simpa using h
  unfold parse_node
  rw [if_neg hni]
  by_cases ho : is_obstacle obst notObst n.tags = true
  · rw [if_pos ho]
    refine ⟨⟨fun _ => (is_obstacle_iff _ _ _).mp ho, fun _ => ⟨_, rfl⟩⟩, ?_⟩
    intro w hw
    exact (Option.some.inj hw).symm
  · rw [if_neg ho]
    refine ⟨⟨?_, ?_⟩, ?_⟩
    · rintro ⟨w, hw⟩
      exact absurd hw (by simp)
    · intro hm
      exact absurd ((is_obstacle_iff _ _ _).mpr hm) ho
    · intro w hw
      exact absurd hw (by simp)

/-- C4 witness: the solitary `barrier=fence` node matches the obstacle rules
(`barrier -> fence`). -/
theorem C4_obstacle_witness :
    (fenceNode.id ∉ ([] : List Int)) ∧
    ((∃ w, parse_node projId [] obstRules notObstRules fenceNode = some w) ↔
      obstacle_rule_matches obstRules notObstRules fenceNode.tags) :=
  ⟨by decide,
   (C4_obstacle_classification projId [] obstRules notObstRules fenceNode (by decide)).1⟩

/-- C3 counterexample: a relation listing the same way both as an `outer`
and as an `inner` member refutes the claimed final state — the outer pass
sets role outer and overlays the relation's tags, but the inner pass runs
afterwards and overwrites the role to `inner`, so the resulting outer way
does not have role outer and the inner-listed way's tags are NOT
unchanged (they carry the relation overlay). -/
theorem C3_dual_role_counterexample :
    dupRelRun.isSome = true ∧
    (dupRelRun.getD ([], [], [])).2.1 = [1] ∧
    (getWay (dupRelRun.getD ([], [], [])).1 1).in_out ≠ some "outer" ∧
    (getWay (dupRelRun.getD ([], [], [])).1 1).in_out = some "inner" ∧
    tagsGet ((getWay (dupRelRun.getD ([], [], [])).1 1).tags.getD []) "rt" = some "rv" ∧
    tagsGet ((getWay relStore 1).tags.getD []) "rt" = none := by
  decide

/-- C3 (amended): member way references absent from the store are silently
skipped; the remaining way members are partitioned by declared role (exactly
the `outer`-role members to `outer_ids`, every other member to `inner_ids`);
WayMerger runs on `outer_ids` only; every resulting outer way gets the
relation's tags overlaid (relation wins per key) and — unless the same way
is also an inner member, in which case the later inner pass overwrites the
role — role `outer`; every inner way gets role `inner`, and an inner way
that is not also an outer member is otherwise completely unchanged. -/
theorem C3_relation_resolution (fuel : Nat) (store : Store) (rng : List Int)
    (rel : OsmRel) (st3 : Store) (outs rng1 : List Int)
    (h : parse_rel fuel store rng rel = some (st3, outs, rng1)) :
    ∃ st1 : Store,
      combine_ways fuel store (partitionMembers (storeKeys store) rel.members).1 rng =
        some (st1, outs, rng1) ∧
      (partitionMembers (storeKeys store) rel.members).1 =
        (rel.members.filter (fun m =>
          m.type_value == "way" && (storeKeys store).contains m.ref &&
            m.role == "outer")).map RelMember.ref ∧
      (partitionMembers (storeKeys store) rel.members).2 =
        (rel.members.filter (fun m =>
          m.type_value == "way" && (storeKeys store).contains m.ref &&
            !(m.role == "outer"))).map RelMember.ref ∧
      (∀ id ∈ outs,
        (id ∉ (partitionMembers (storeKeys store) rel.members).2 →
          (getWay st3 id).in_out = some "outer") ∧
        (∀ s, tagsGet ((getWay st3 id).tags.getD []) s =
          ((tagsGet (rel.tags.getD []) s).orElse
            (fun _ => tagsGet ((getWay st1 id).tags.getD []) s)))) ∧
      (∀ id ∈ (partitionMembers (storeKeys store) rel.members).2,
        (getWay st3 id).in_out = some "inner" ∧
        (id ∉ (partitionMembers (storeKeys store) rel.members).1 →
          getWay st3 id = { getWay store id with in_out := some "inner" })) := by
  simp only [parse_rel] at h
  cases hcw : combine_ways fuel store
      (partitionMembers (storeKeys store) rel.members).1 rng with
  | none => rw [hcw] at h; exact absurd h (by simp)
  | some tr =>
    obtain ⟨st1, outs0, rng0⟩ := tr
    rw [hcw] at h
    simp only [Option.some.injEq, Prod.mk.injEq] at h
    obtain ⟨h3, houts, hrng⟩ := h
    subst houts
    subst hrng
    subst h3
    refine ⟨st1, rfl, ?_, ?_, ?_, ?_⟩
    · rw [partitionMembers_eq]
    · rw [partitionMembers_eq]
    · intro id hid
      constructor
      · intro hnotin
        rw [getWay_innerMark_not_mem _ _ _ hnotin]
        exact (outerMark_mem outs0 st1 (rel.tags.getD []) id hid).1
      · intro s
        by_cases hin : id ∈ (partitionMembers (storeKeys store) rel.members).2
        · rw [innerMark_mem _ _ _ hin]
          exact (outerMark_mem outs0 st1 (rel.tags.getD []) id hid).2 s
        · rw [getWay_innerMark_not_mem _ _ _ hin]
          exact (outerMark_mem outs0 st1 (rel.tags.getD []) id hid).2 s
    · intro id hid
      refine ⟨?_, ?_⟩
      · rw [innerMark_mem _ _ _ hid]
      · intro hnotouts
        have hkeys : id ∈ storeKeys store :=
          (partitionMembers_sub (storeKeys store) rel.members).2 id hid
        have hnot0 : id ∉ outs0 := by
          intro hc
          rcases combineLoop_ids_from fuel store _ rng 0 0 st1 outs0 rng0 hcw id hc with
            hc' | hc'
          · exact hnotouts hc'
          · exact hc' hkeys
        rw [innerMark_mem _ _ _ hid,
          getWay_outerMark_not_mem _ _ _ _ hnot0]
        have hsame : getWay st1 id = getWay store id := by
          unfold getWay
          rw [combineLoop_untouched fuel store _ rng 0 0 st1 outs0 rng0 hcw id hkeys
            hnotouts]
        rw [hsame]

/-- C3 witness: the well-formed relation (way 1 outer, way 2 inner) over
`pairStore` instantiates the amended claim. -/
theorem C3_relation_resolution_witness :
    okRelRun.isSome = true ∧
    (∃ st1 : Store,
      combine_ways 100 pairStore
          (partitionMembers (storeKeys pairStore) okRel.members).1 [] =
        some (st1, (okRelRun.getD ([], [], [])).2.1, (okRelRun.getD ([], [], [])).2.2) ∧
      (partitionMembers (storeKeys pairStore) okRel.members).1 =
        (okRel.members.filter (fun m =>
          m.type_value == "way" && (storeKeys pairStore).contains m.ref &&
            m.role == "outer")).map RelMember.ref ∧
      (partitionMembers (storeKeys pairStore) okRel.members).2 =
        (okRel.members.filter (fun m =>
          m.type_value == "way" && (storeKeys pairStore).contains m.ref &&
            !(m.role == "outer"))).map RelMember.ref ∧
      (∀ id ∈ (okRelRun.getD ([], [], [])).2.1,
        (id ∉ (partitionMembers (storeKeys pairStore) okRel.members).2 →
          (getWay (okRelRun.getD ([], [], [])).1 id).in_out = some "outer") ∧
        (∀ s, tagsGet ((getWay (okRelRun.getD ([], [], [])).1 id).tags.getD []) s =
          ((tagsGet (okRel.tags.getD []) s).orElse
            (fun _ => tagsGet ((getWay st1 id).tags.getD []) s)))) ∧
      (∀ id ∈ (partitionMembers (storeKeys pairStore) okRel.members).2,
        (getWay (okRelRun.getD ([], [], [])).1 id).in_out = some "inner" ∧
        (id ∉ (partitionMembers (storeKeys pairStore) okRel.members).1 →
          getWay (okRelRun.getD ([], [], [])).1 id =
            { getWay pairStore id with in_out := some "inner" }))) := by
  refine ⟨by decide, ?_⟩
  cases hr : okRelRun with
  | none => exact absurd hr (by decide)
  | some tr =>
    obtain ⟨st3, outs, rng1⟩ := tr
    exact C3_relation_resolution 100 pairStore [] okRel st3 outs rng1 hr
